import Mathlib

/-!
Verification of the jigsaw2019 fine-tuning notebook (fine-tuning-lstm.ipynb).

The notebook fine-tunes a pretrained LSTM language model into a binary
toxicity classifier.  We shallowly embed the logic the notebook itself
contains: the mean-pooling aggregation layer, the target binarization, the
preprocessing functions, the training-loop loss accounting, and the
inference / submission pipeline.  Tensors of shape (T, N, C) are embedded
as functions over timestep, sample and channel indices with explicit
bounds; real-valued entries are modelled by rationals except for the
sigmoid, which needs the real exponential.  Framework pieces the notebook
only calls (parameter serialization, the bucketed batch sampler) are
modelled from the specification and marked as such.
-/

/-- Embedding of F.SequenceMask with use_sequence_length=True on a tensor of
shape (T, N, C): entries at timesteps t with valid_length n le t are replaced
by zero, entries at timesteps before the valid length pass through. -/
def SequenceMask (valid_length : ℕ → ℕ) (data : ℕ → ℕ → ℕ → ℚ) :
    ℕ → ℕ → ℕ → ℚ :=
  fun t n c => if t < valid_length n then data t n c else 0

/-- Embedding of F.sum(x, axis=0) on a tensor of shape (T, N, C): sum over
the time axis, giving shape (N, C). -/
def sumAxis0 (T : ℕ) (x : ℕ → ℕ → ℕ → ℚ) : ℕ → ℕ → ℚ :=
  fun n c => ∑ t in Finset.range T, x t n c

/-- Embedding of F.broadcast_div of an (N, C) tensor by an (N, 1) tensor
(the expand_dims of the valid-length vector). -/
def broadcast_div (x : ℕ → ℕ → ℚ) (y : ℕ → ℚ) : ℕ → ℕ → ℚ :=
  fun n c => x n c / y n

/-- MeanPoolingLayer.hybrid_forward from the notebook: mask the encoded
features beyond each valid length, sum over the time axis, and divide by
the valid length (broadcast over channels). -/
def meanPooling_hybrid_forward (T : ℕ) (data : ℕ → ℕ → ℕ → ℚ)
    (valid_length : ℕ → ℕ) : ℕ → ℕ → ℚ :=
  broadcast_div (sumAxis0 T (SequenceMask valid_length data))
    (fun n => (valid_length n : ℚ))

/-- broadcast_div with an explicit divide-by-zero check over the first N
samples: returns none when some divisor among the first N is zero,
otherwise the same quotient tensor as broadcast_div. -/
def broadcast_div_checked (N : ℕ) (x : ℕ → ℕ → ℚ) (y : ℕ → ℚ) :
    Option (ℕ → ℕ → ℚ) :=
  if ∀ n ∈ Finset.range N, y n ≠ 0 then some (broadcast_div x y) else none

/-- The mean-pooling forward with the division checked for divide-by-zero
across the N samples of the batch. -/
def meanPooling_checked (T N : ℕ) (data : ℕ → ℕ → ℕ → ℚ)
    (valid_length : ℕ → ℕ) : Option (ℕ → ℕ → ℚ) :=
  broadcast_div_checked N (sumAxis0 T (SequenceMask valid_length data))
    (fun n => (valid_length n : ℚ))

/-- Binarization of the continuous toxicity target from the notebook:
train_df.target is replaced by (train_df.target >= 0.5).astype(int),
applied row by row. -/
def binarize_target (x : ℚ) : ℤ :=
  if 1 / 2 ≤ x then 1 else 0

/-- The clipping constant of nlp.data.ClipSequence(500). -/
def clip_length : ℕ := 500

/-- length_clip from the notebook: keep at most the first 500 elements. -/
def length_clip {α : Type} (l : List α) : List α :=
  l.take clip_length

/-- preprocess from the notebook: tokenize the comment, clip to 500 tokens,
map tokens to vocabulary indices, and keep the label.  The external tokenizer
and the vocabulary lookup (which defaults to the unknown-token id) are
parameters. -/
def preprocess (tokenizer : String → List String) (vocabIdx : String → ℕ)
    (x : String × ℤ) : List ℕ × ℤ :=
  ((length_clip (tokenizer x.1)).map vocabIdx, x.2)

/-- test_preprocess from the notebook: same as preprocess but without a
label. -/
def test_preprocess (tokenizer : String → List String)
    (vocabIdx : String → ℕ) (x : String) : List ℕ :=
  (length_clip (tokenizer x)).map vocabIdx

/-- get_length from the notebook: the length of the token-id sequence of a
preprocessed training sample. -/
def get_length (x : List ℕ × ℤ) : ℕ :=
  x.1.length

/-- The sigmoid applied to the logits at prediction time
(result.sigmoid() in the notebook): 1 / (1 + exp(-x)). -/
noncomputable def sigmoid (x : ℝ) : ℝ :=
  1 / (1 + Real.exp (-x))

/-- The per-batch loss value the training loop accumulates:
loss(output, label).mean(), the mean of the per-sample losses of the
batch. -/
def batch_mean_loss (losses : List ℚ) : ℚ :=
  losses.sum / (losses.length : ℚ)

/-- The loss accounting of the training loop.  Each batch is represented
by its list of per-sample loss values (loss(output, label)) together with
data.shape[1]: data is the (N, T) batch-major output of the Pad batchify
(hence the .T before the (T, N, C) encoder), so data.shape[1] is the
padded sequence length of the batch, not the batch size.  State: the
accumulators (log_interval_L, log_interval_sent_num) and the batch
counter i.  Per batch the loop adds the batch mean loss to
log_interval_L and data.shape[1] to log_interval_sent_num; when (i + 1)
is a multiple of log_interval it prints
log_interval_L / log_interval_sent_num and clears both accumulators.
Returns the printed averages and the final accumulator state. -/
def train_log_loop : ℕ → ℚ × ℕ → ℕ → List (List ℚ × ℕ) → List ℚ × (ℚ × ℕ)
  | _, st, _, [] => ([], st)
  | k, st, i, b :: bs =>
      let accL := st.1 + batch_mean_loss b.1
      let accN := st.2 + b.2
      if (i + 1) % k = 0 then
        let rest := train_log_loop k (0, 0) (i + 1) bs
        ((accL / (accN : ℚ)) :: rest.1, rest.2)
      else
        train_log_loop k (accL, accN) (i + 1) bs

/-- The value the loop actually prints for a full logging interval: the
sum of the per-batch mean losses of the interval divided by the sum of
the per-batch padded sequence lengths (data.shape[1]) of the interval. -/
def interval_avg (chunk : List (List ℚ × ℕ)) : ℚ :=
  (chunk.map (fun b => batch_mean_loss b.1)).sum /
    ((chunk.map (fun b => b.2)).sum : ℚ)

/-- Splitting a list into consecutive chunks of size m (the last chunk may
be shorter).  Used for the sequential batching of the test DataLoader
(shuffle=False) and for rebuilding a rectangular array from its flattened
rows. -/
def chunkList {α : Type} : ℕ → List α → List (List α)
  | _, [] => []
  | 0, _ :: _ => []
  | m + 1, a :: t =>
      (a :: t).take (m + 1) :: chunkList (m + 1) ((a :: t).drop (m + 1))
termination_by _ l => l.length
decreasing_by
  simp only [List.length_drop, List.length_cons]
  omega

/-- The preprocessed test dataset: test_preprocess mapped over the raw
test comments, in input order (pool.map keeps order). -/
def test_dataset (tokenizer : String → List String) (vocabIdx : String → ℕ)
    (texts : List String) : List (List ℕ) :=
  texts.map (test_preprocess tokenizer vocabIdx)

/-- The test DataLoader with shuffle=False: consecutive batches of
batch_size samples in dataset order. -/
def test_dataloader {α : Type} (batch_size : ℕ) (ds : List α) :
    List (List α) :=
  chunkList batch_size ds

/-- The prediction loop: for each batch the network produces one logit per
sample in batch order, and results.extend keeps the batch outputs in
order.  The per-sample network output is the parameter netOut. -/
def inference_results (netOut : List ℕ → ℚ) (batches : List (List (List ℕ))) :
    List ℚ :=
  (batches.map (fun b => b.map netOut)).flatten

/-- predictions from the notebook: result.sigmoid() applied to every
collected logit, with the scalar sigmoid abstract (it lives on reals). -/
def predictionsOf (sigma : ℚ → ℚ) (results : List ℚ) : List ℚ :=
  results.map sigma

/-- The submission DataFrame: the id column of the test frame zipped with
the predictions, written row by row. -/
def submission (ids : List String) (preds : List ℚ) : List (String × ℚ) :=
  ids.zip preds

/-- The parameter state of the SentimentNet: the embedding table and the
encoder weights borrowed from the pretrained language model, and the
freshly initialized Dense head (weight vector and bias, one output
unit).  The encoder weights are kept as one flat array since the LSTM
internals are framework code. -/
structure ModelParams where
  embedding_weight : List (List ℚ)
  encoder_weight : List ℚ
  dense_weight : List ℚ
  dense_bias : ℚ
deriving DecidableEq

/-- Modelled from the spec: net.save_parameters (a framework call, not
notebook code) writes every parameter of the network to the named file as
shape-tagged flat arrays keyed by parameter name. -/
def save_parameters (p : ModelParams) : List (String × List ℕ × List ℚ) :=
  [("embedding0.weight",
      ([p.embedding_weight.length, (p.embedding_weight.headD []).length],
        p.embedding_weight.flatten)),
    ("encoder0.weight", ([p.encoder_weight.length], p.encoder_weight)),
    ("dense0.weight", ([p.dense_weight.length], p.dense_weight)),
    ("dense0.bias", ([1], [p.dense_bias]))]

/-- Find a saved tensor by parameter name in a parameter file. -/
def lookup_tensor (file : List (String × List ℕ × List ℚ)) (nm : String) :
    Option (List ℕ × List ℚ) :=
  (file.find? (fun e => e.1 == nm)).map (fun e => e.2)

/-- Modelled from the spec: net.load_parameters (a framework call, not
notebook code) reads the snapshot back, rebuilding each parameter array
from its stored shape; missing or malformed entries fail the load. -/
def load_parameters (file : List (String × List ℕ × List ℚ)) :
    Option ModelParams :=
  match lookup_tensor file "embedding0.weight",
      lookup_tensor file "encoder0.weight",
      lookup_tensor file "dense0.weight",
      lookup_tensor file "dense0.bias" with
  | some (eshape, eflat), some (_, enc), some (_, dw), some (_, db) =>
      match db with
      | [b] => some ⟨chunkList (eshape.getD 1 0) eflat, enc, dw, b⟩
      | _ => none
  | _, _, _, _ => none

/-- The embedding lookup net.embedding(data): token ids of shape (T, N)
become vectors of shape (T, N, C) by indexing the embedding table. -/
def embedding_lookup (emb : List (List ℚ)) (data : ℕ → ℕ → ℕ) :
    ℕ → ℕ → ℕ → ℚ :=
  fun t n c => (emb.getD (data t n) []).getD c 0

/-- SentimentNet.hybrid_forward: embed the token ids, run the (external)
encoder, mean-pool over valid timesteps, and apply the Dense output layer
over the C pooled channels (dropout is 0, a no-op).  The encoder is a
parameter taking the encoder weights and the embedded data. -/
def SentimentNet_forward
    (encoder : List ℚ → (ℕ → ℕ → ℕ → ℚ) → ℕ → ℕ → ℕ → ℚ)
    (p : ModelParams) (T C : ℕ) (data : ℕ → ℕ → ℕ)
    (valid_length : ℕ → ℕ) : ℕ → ℚ :=
  fun n =>
    (∑ c in Finset.range C, p.dense_weight.getD c 0 *
        meanPooling_hybrid_forward T
          (encoder p.encoder_weight (embedding_lookup p.embedding_weight data))
          valid_length n c) +
      p.dense_bias

/-- Modelled from the spec: the bucket assignment of gluonnlp
FixedBucketSampler (framework code, not notebook code).  A sample goes to
the first bucket whose boundary key is at least its length; samples
longer than every key fall into the last bucket. -/
def assignBucket : List ℕ → ℕ → ℕ
  | [], _ => 0
  | [_], _ => 0
  | k :: rest, len => if len ≤ k then 0 else assignBucket rest len + 1

/-- Modelled from the spec: the b-th bucket of the sampler, the dataset
indices (in order) whose sample length is assigned to bucket b. -/
def bucket_of (lengths keys : List ℕ) (b : ℕ) : List ℕ :=
  (List.range lengths.length).filter
    (fun s => assignBucket keys (lengths.getD s 0) == b)

/-- Modelled from the spec: one epoch of gluonnlp FixedBucketSampler
before shuffling: partition the dataset indices into the length buckets
and cut every bucket into batches of its per-bucket batch size.  The
per-epoch shuffle is a permutation of this batch list and is quantified
over in the theorem. -/
def fixed_bucket_sampler (lengths keys : List ℕ) (bsizes : ℕ → ℕ) :
    List (List ℕ) :=
  ((List.range keys.length).map
    (fun b => chunkList (bsizes b) (bucket_of lengths keys b))).flatten

/-- C1: for a batch of per-timestep feature vectors of time extent T with
per-sample valid lengths, the mean-pooling layer returns, for each sample n
and channel c, the sum of that sample entries over timesteps before its
valid length divided by its valid length. -/
theorem meanPooling_is_prefix_mean (T : ℕ) (data : ℕ → ℕ → ℕ → ℚ)
    (valid_length : ℕ → ℕ) (n c : ℕ) (h : valid_length n ≤ T) :
    meanPooling_hybrid_forward T data valid_length n c =
      (∑ t in Finset.range (valid_length n), data t n c) /
        (valid_length n : ℚ) := by
  unfold meanPooling_hybrid_forward broadcast_div sumAxis0 SequenceMask
  congr 1
  rw [← Finset.sum_filter]
  congr 1
  ext t
  simp only [Finset.mem_filter, Finset.mem_range]
  omega

/-- Witness for C1 at a concrete batch: T = 3, valid length 2. -/
theorem meanPooling_is_prefix_mean_witness :
    (fun _ : ℕ => 2) 0 ≤ 3 ∧
      meanPooling_hybrid_forward 3 (fun t _ _ => (t : ℚ) + 1)
          (fun _ => 2) 0 0 =
        (∑ t in Finset.range 2, ((t : ℚ) + 1)) / ((2 : ℕ) : ℚ) :=
  ⟨by decide,
    meanPooling_is_prefix_mean 3 (fun t _ _ => (t : ℚ) + 1)
      (fun _ => 2) 0 0 (by decide)⟩

/-- C2: the mean-pool output of a sample depends only on its valid-length
prefix.  Two batches that agree, for every sample, on all channels of the
timesteps before that sample valid length (and share the valid-length
vector) produce identical mean-pool outputs at every sample and channel. -/
theorem meanPooling_ignores_padding (T : ℕ) (valid_length : ℕ → ℕ)
    (data data' : ℕ → ℕ → ℕ → ℚ)
    (h : ∀ n t c, t < valid_length n → data t n c = data' t n c) :
    ∀ n c, meanPooling_hybrid_forward T data valid_length n c =
      meanPooling_hybrid_forward T data' valid_length n c := by
  intro n c
  unfold meanPooling_hybrid_forward broadcast_div sumAxis0 SequenceMask
  congr 1
  apply Finset.sum_congr rfl
  intro t _
  by_cases ht : t < valid_length n
  · simp only [ht, if_true]
    exact h n t c ht
  · simp only [ht, if_false]

/-- Witness for C2: two concrete batches differing only at a padded
timestep give the same pooled value. -/
theorem meanPooling_ignores_padding_witness :
    (∀ (n t c : ℕ), t < (fun _ : ℕ => 1) n →
        (fun (t _ _ : ℕ) => if t = 0 then (5 : ℚ) else 7) t n c =
          (fun (t _ _ : ℕ) => if t = 0 then (5 : ℚ) else 9) t n c) ∧
      ∀ n c, meanPooling_hybrid_forward 2
          (fun (t _ _ : ℕ) => if t = 0 then (5 : ℚ) else 7) (fun _ => 1) n c =
        meanPooling_hybrid_forward 2
          (fun (t _ _ : ℕ) => if t = 0 then (5 : ℚ) else 9) (fun _ => 1) n c := by
  have h : ∀ (n t c : ℕ), t < (fun _ : ℕ => 1) n →
      (fun (t _ _ : ℕ) => if t = 0 then (5 : ℚ) else 7) t n c =
        (fun (t _ _ : ℕ) => if t = 0 then (5 : ℚ) else 9) t n c := by
    intro n t c ht
    have ht1 : t < 1 := ht
    have ht0 : t = 0 := by omega
    simp [ht0]
  exact ⟨h, meanPooling_ignores_padding 2 (fun _ => 1) _ _ h⟩

/-- C5: when every sample of the batch has valid length at least 1, the
division of the mean-pooling layer never divides by zero: the checked
forward takes the non-error branch and agrees with the unchecked layer. -/
theorem meanPooling_no_div_by_zero (T N : ℕ) (data : ℕ → ℕ → ℕ → ℚ)
    (valid_length : ℕ → ℕ) (h : ∀ n < N, 1 ≤ valid_length n) :
    meanPooling_checked T N data valid_length =
      some (meanPooling_hybrid_forward T data valid_length) := by
  unfold meanPooling_checked broadcast_div_checked
  rw [if_pos]
  · rfl
  · intro n hn
    simp only [Finset.mem_range] at hn
    have h1 := h n hn
    have : (0 : ℚ) < (valid_length n : ℚ) := by
      exact_mod_cast Nat.lt_of_lt_of_le Nat.zero_lt_one h1
    exact ne_of_gt this

/-- Witness for C5 at a concrete batch with N = 1 and valid length 1. -/
theorem meanPooling_no_div_by_zero_witness :
    (∀ n < 1, 1 ≤ (fun _ : ℕ => 1) n) ∧
      meanPooling_checked 1 1 (fun _ _ _ => (1 : ℚ)) (fun _ => 1) =
        some (meanPooling_hybrid_forward 1 (fun _ _ _ => (1 : ℚ))
          (fun _ => 1)) :=
  ⟨by decide, meanPooling_no_div_by_zero 1 1 _ _ (by decide)⟩

/-- C4: the binarized training label is 1 exactly when the continuous
score is at least one half, 0 exactly when it is below one half, and is
always one of 0 and 1. -/
theorem binarize_target_spec (x : ℚ) :
    (binarize_target x = 1 ↔ 1 / 2 ≤ x) ∧
      (binarize_target x = 0 ↔ x < 1 / 2) ∧
      (binarize_target x = 0 ∨ binarize_target x = 1) := by
  unfold binarize_target
  by_cases h : 1 / 2 ≤ x
  · rw [if_pos h]
    exact ⟨⟨fun _ => h, fun _ => rfl⟩,
      ⟨fun h1 => absurd h1 (by norm_num), fun hx => absurd h (not_le.mpr hx)⟩,
      Or.inr rfl⟩
  · rw [if_neg h]
    exact ⟨⟨fun h0 => absurd h0 (by norm_num), fun hle => absurd hle h⟩,
      ⟨fun _ => not_le.mp h, fun _ => rfl⟩, Or.inl rfl⟩

/-- C10: preprocessing gives no minimum output length.  For any input
string whose tokenization is empty, test_preprocess returns a token-id
sequence of length 0, and a batch whose valid length comes from that
sample makes the checked mean-pooling division report a divide-by-zero. -/
theorem preprocess_no_min_length (tokenizer : String → List String)
    (vocabIdx : String → ℕ) (s : String) (h : tokenizer s = []) :
    (test_preprocess tokenizer vocabIdx s).length = 0 ∧
      ∀ (T : ℕ) (data : ℕ → ℕ → ℕ → ℚ),
        meanPooling_checked T 1 data
          (fun _ => (test_preprocess tokenizer vocabIdx s).length) = none := by
  have hlen : (test_preprocess tokenizer vocabIdx s).length = 0 := by
    unfold test_preprocess length_clip
    simp [h]
  refine ⟨hlen, ?_⟩
  intro T data
  unfold meanPooling_checked broadcast_div_checked
  rw [if_neg]
  intro hall
  have := hall 0 (by simp)
  rw [hlen] at this
  exact this (by norm_num)

/-- Witness for C10: the constantly-empty tokenizer on the empty string. -/
theorem preprocess_no_min_length_witness :
    (fun _ : String => ([] : List String)) "" = [] ∧
      (test_preprocess (fun _ => []) (fun _ => 0) "").length = 0 ∧
      ∀ (T : ℕ) (data : ℕ → ℕ → ℕ → ℚ),
        meanPooling_checked T 1 data
          (fun _ => (test_preprocess (fun _ => []) (fun _ => 0) "").length) =
          none :=
  ⟨rfl, preprocess_no_min_length (fun _ => []) (fun _ => 0) "" rfl⟩

/-- One full logging interval of the training loop: starting with batch
counter i with ch.length + i % k = k, the loop processes ch, prints the
accumulated mean-loss sum divided by the accumulated padded-length sum,
clears the accumulators, and continues on the remaining batches. -/
theorem train_log_loop_interval (k : ℕ) (hk : 0 < k)
    (ch : List (List ℚ × ℕ)) :
    ∀ (bs : List (List ℚ × ℕ)) (accL : ℚ) (accN : ℕ) (i : ℕ),
      ch.length + i % k = k →
      train_log_loop k (accL, accN) i (ch ++ bs) =
        (((accL + (ch.map (fun b => batch_mean_loss b.1)).sum) /
            ((accN + (ch.map (fun b => b.2)).sum : ℕ) : ℚ)) ::
            (train_log_loop k (0, 0) (i + ch.length) bs).1,
          (train_log_loop k (0, 0) (i + ch.length) bs).2) := by
  induction ch with
  | nil =>
      intro bs accL accN i h
      have := Nat.mod_lt i hk
      simp at h
      omega
  | cons b t ih =>
      intro bs accL accN i h
      cases t with
      | nil =>
          simp only [List.length_cons, List.length_nil] at h
          have hmod : (i + 1) % k = 0 := by
            have h1 : (i % k + 1) % k = (i + 1) % k := Nat.mod_add_mod i k 1
            have h2 : i % k + 1 = k := by omega
            rw [← h1, h2, Nat.mod_self]
          simp only [List.cons_append, List.nil_append, train_log_loop, hmod,
            if_true, List.map_cons, List.map_nil, List.sum_cons, List.sum_nil,
            List.length_cons, List.length_nil]
          norm_num
      | cons b2 t2 =>
          have hiklt : i % k < k := Nat.mod_lt i hk
          have hmodlt : i % k + 1 < k := by
            simp only [List.length_cons] at h
            omega
          have hmod : (i + 1) % k = i % k + 1 := by
            have h1 : (i % k + 1) % k = (i + 1) % k := Nat.mod_add_mod i k 1
            rw [← h1, Nat.mod_eq_of_lt hmodlt]
          have hmodne : (i + 1) % k ≠ 0 := by omega
          rw [List.cons_append, train_log_loop]
          simp only [hmodne, if_false]
          have h' : (b2 :: t2).length + (i + 1) % k = k := by
            simp only [List.length_cons] at h ⊢
            omega
          rw [ih bs (accL + batch_mean_loss b.1) (accN + b.2) (i + 1) h']
          simp only [List.map_cons, List.sum_cons, List.length_cons]
          have hA : accL + batch_mean_loss b.1 +
              (batch_mean_loss b2.1 +
                (List.map (fun b => batch_mean_loss b.1) t2).sum) =
              accL + (batch_mean_loss b.1 +
                (batch_mean_loss b2.1 +
                  (List.map (fun b => batch_mean_loss b.1) t2).sum)) := by
            ring
          have hB : accN + b.2 +
              (b2.2 + (List.map (fun b => b.2) t2).sum) =
              accN + (b.2 + (b2.2 + (List.map (fun b => b.2) t2).sum)) := by
            omega
          have hidx : i + 1 + (t2.length + 1) = i + (t2.length + 1 + 1) := by
            omega
          rw [hA, hB, hidx]

/-- Helper for C3: from any batch counter that is a multiple of the
logging interval, running the loop on a sequence of full intervals prints
one average per interval and ends with cleared accumulators. -/
theorem train_log_loop_chunks (k : ℕ) (hk : 0 < k)
    (chunks : List (List (List ℚ × ℕ))) :
    ∀ i : ℕ, (∀ ch ∈ chunks, ch.length = k) → i % k = 0 →
      train_log_loop k (0, 0) i chunks.flatten =
        (chunks.map interval_avg, (0, 0)) := by
  induction chunks with
  | nil =>
      intro i _ _
      simp [train_log_loop]
  | cons ch rest ih =>
      intro i hfull hi
      have hch : ch.length = k := hfull ch (by simp)
      have hk2 : ch.length + i % k = k := by omega
      simp only [List.flatten_cons, List.map_cons]
      rw [train_log_loop_interval k hk ch rest.flatten 0 0 i hk2]
      have hnext : (i + ch.length) % k = 0 := by
        rw [hch, Nat.add_mod_right]
        exact hi
      rw [ih (i + ch.length) (fun c hc => hfull c (by simp [hc])) hnext]
      simp [interval_avg, Function.comp_def]

/-- C3 counterexample: the printed average is not the total per-sample
loss of the interval divided by the number of samples.  With
log_interval = 2 and two batches of per-sample losses [3] and [1, 1, 1]
whose padded sequence lengths (data.shape[1]) are 4 and 2, the loop
prints (3 + 1) / (4 + 2) = 2 / 3, while the total per-sample loss
divided by the sample count is (3 + 1 + 1 + 1) / 4 = 3 / 2. -/
theorem train_log_loop_not_per_sample_mean :
    (train_log_loop 2 (0, 0) 0 [([(3 : ℚ)], 4), ([1, 1, 1], 2)]).1 ≠
      [(([(3 : ℚ)] ++ [1, 1, 1]).sum) /
        ((([(3 : ℚ)].length + ([1, 1, 1] : List ℚ).length : ℕ)) : ℚ)] := by
  have h1 : (train_log_loop 2 (0, 0) 0 [([(3 : ℚ)], 4), ([1, 1, 1], 2)]).1 =
      [2 / 3] := by
    simp [train_log_loop, batch_mean_loss]
    norm_num
  have h2 : (([(3 : ℚ)] ++ [1, 1, 1]).sum) /
      ((([(3 : ℚ)].length + ([1, 1, 1] : List ℚ).length : ℕ)) : ℚ) =
      3 / 2 := by
    norm_num
  rw [h1, h2]
  simp only [ne_eq, List.cons.injEq, and_true]
  norm_num

/-- C3 (amended): at each logging interval the printed average loss
equals the sum of the per-batch mean losses accumulated since the
previous log point divided by the sum of the padded sequence lengths
(data.shape[1] of the batch-major Pad output) accumulated in that
interval, and the accumulators are reset after each log. -/
theorem train_log_loop_reports_interval_avg (k : ℕ) (hk : 0 < k)
    (chunks : List (List (List ℚ × ℕ)))
    (hfull : ∀ ch ∈ chunks, ch.length = k) :
    train_log_loop k (0, 0) 0 chunks.flatten =
      (chunks.map interval_avg, (0, 0)) :=
  train_log_loop_chunks k hk chunks 0 hfull (Nat.zero_mod k)

/-- Witness for C3 (amended) at a concrete run: log interval 2, one full
interval of batches [1] and [2, 3] with padded lengths 5 and 7. -/
theorem train_log_loop_reports_interval_avg_witness :
    0 < 2 ∧ (∀ ch ∈ [[([(1 : ℚ)], 5), ([2, 3], 7)]], ch.length = 2) ∧
      train_log_loop 2 (0, 0) 0 ([([(1 : ℚ)], 5), ([2, 3], 7)] :: []).flatten =
        ([interval_avg [([(1 : ℚ)], 5), ([2, 3], 7)]], (0, 0)) :=
  ⟨by decide, by decide,
    train_log_loop_reports_interval_avg 2 (by decide) _ (by decide)⟩

/-- C9: the prediction sigmoid always lies in the closed interval [0, 1],
and a logit of exactly 0 maps to exactly one half. -/
theorem sigmoid_range_and_zero :
    (∀ x : ℝ, sigmoid x ∈ Set.Icc (0 : ℝ) 1) ∧ sigmoid 0 = 1 / 2 := by
  constructor
  · intro x
    have hp : (0 : ℝ) < Real.exp (-x) := Real.exp_pos (-x)
    have hd : (0 : ℝ) < 1 + Real.exp (-x) := by linarith
    constructor
    · unfold sigmoid
      positivity
    · unfold sigmoid
      rw [div_le_one hd]
      linarith
  · unfold sigmoid
    rw [neg_zero, Real.exp_zero]
    norm_num

/-- Unfolding equation for chunkList on a nonempty list and positive
chunk size. -/
theorem chunkList_cons (m : ℕ) {α : Type} (a : α) (t : List α) :
    chunkList (m + 1) (a :: t) =
      (a :: t).take (m + 1) :: chunkList (m + 1) ((a :: t).drop (m + 1)) := by
  rw [chunkList]

/-- Chunking a list and flattening the chunks gives the list back. -/
theorem chunkList_flatten_aux {α : Type} (m : ℕ) (hm : 0 < m) :
    ∀ (n : ℕ) (l : List α), l.length ≤ n → (chunkList m l).flatten = l := by
  intro n
  induction n with
  | zero =>
      intro l hl
      have hnil : l = [] := List.eq_nil_of_length_eq_zero (by omega)
      subst hnil
      simp [chunkList]
  | succ n ih =>
      intro l hl
      cases l with
      | nil => simp [chunkList]
      | cons a t =>
          cases m with
          | zero => omega
          | succ m' =>
              rw [chunkList_cons, List.flatten_cons,
                ih ((a :: t).drop (m' + 1)) ?hlen, List.take_append_drop]
              case hlen =>
                simp only [List.length_drop, List.length_cons] at hl ⊢
                omega

/-- Chunking then flattening is the identity for positive chunk size. -/
theorem chunkList_flatten {α : Type} (m : ℕ) (hm : 0 < m) (l : List α) :
    (chunkList m l).flatten = l :=
  chunkList_flatten_aux m hm l.length l le_rfl

/-- C7: the submission has exactly one row per test example, in test-CSV
order: row i carries the id of test row i and the prediction computed
from the preprocessed comment of test row i. -/
theorem submission_matches_test_rows (tokenizer : String → List String)
    (vocabIdx : String → ℕ) (netOut : List ℕ → ℚ) (sigma : ℚ → ℚ)
    (ids texts : List String) (batch_size : ℕ) (hm : 0 < batch_size)
    (hlen : ids.length = texts.length) :
    (submission ids (predictionsOf sigma (inference_results netOut
        (test_dataloader batch_size
          (test_dataset tokenizer vocabIdx texts))))).length = texts.length ∧
      ∀ i, i < texts.length →
        (submission ids (predictionsOf sigma (inference_results netOut
            (test_dataloader batch_size
              (test_dataset tokenizer vocabIdx texts))))).getD i ("", 0) =
          (ids.getD i "",
            sigma (netOut (test_preprocess tokenizer vocabIdx
              (texts.getD i "")))) := by
  have hres : inference_results netOut (test_dataloader batch_size
      (test_dataset tokenizer vocabIdx texts)) =
      (test_dataset tokenizer vocabIdx texts).map netOut := by
    unfold inference_results test_dataloader
    rw [← List.map_flatten, chunkList_flatten batch_size hm]
  have hpred : predictionsOf sigma (inference_results netOut
      (test_dataloader batch_size (test_dataset tokenizer vocabIdx texts))) =
      texts.map (fun s =>
        sigma (netOut (test_preprocess tokenizer vocabIdx s))) := by
    rw [hres]
    unfold predictionsOf test_dataset
    rw [List.map_map, List.map_map]
    rfl
  have hplen : (predictionsOf sigma (inference_results netOut
      (test_dataloader batch_size
        (test_dataset tokenizer vocabIdx texts)))).length = texts.length := by
    rw [hpred, List.length_map]
  constructor
  · unfold submission
    rw [List.length_zip, hplen, hlen, min_self]
  · intro i hi
    unfold submission
    have hzlen : i < (ids.zip (predictionsOf sigma (inference_results netOut
        (test_dataloader batch_size
          (test_dataset tokenizer vocabIdx texts))))).length := by
      rw [List.length_zip, hplen, hlen, min_self]
      exact hi
    rw [List.getD_eq_getElem _ _ hzlen, List.getElem_zip]
    have hib : i < ids.length := by omega
    rw [List.getD_eq_getElem ids "" hib]
    congr 1
    have hip : i < (predictionsOf sigma (inference_results netOut
        (test_dataloader batch_size
          (test_dataset tokenizer vocabIdx texts)))).length := by
      rw [hplen]; exact hi
    rw [← List.getD_eq_getElem _ (0 : ℚ) hip, hpred]
    rw [List.getD_eq_getElem _ _ (by rw [List.length_map]; exact hi),
      List.getElem_map, List.getD_eq_getElem _ _ hi]

/-- Witness for C7 on a concrete three-row test set with batch size 2. -/
theorem submission_matches_test_rows_witness :
    0 < 2 ∧ (["a", "b", "c"] : List String).length =
        (["x", "y", "z"] : List String).length ∧
      (submission ["a", "b", "c"] (predictionsOf (fun q => q)
          (inference_results (fun l => (l.length : ℚ))
            (test_dataloader 2
              (test_dataset (fun s => [s]) (fun _ => 7)
                ["x", "y", "z"]))))).length =
          (["x", "y", "z"] : List String).length :=
  ⟨by decide, by decide,
    (submission_matches_test_rows (fun s => [s]) (fun _ => 7)
      (fun l => (l.length : ℚ)) (fun q => q) ["a", "b", "c"] ["x", "y", "z"]
      2 (by decide) (by decide)).1⟩

/-- Chunking an appended list whose first part has exactly the chunk
size peels off that first part as one chunk. -/
theorem chunkList_append {α : Type} (l₁ l₂ : List α) (h : l₁ ≠ []) :
    chunkList l₁.length (l₁ ++ l₂) = l₁ :: chunkList l₁.length l₂ := by
  cases l₁ with
  | nil => exact absurd rfl h
  | cons a rt =>
      rw [List.cons_append, show (a :: rt).length = rt.length + 1 from rfl,
        chunkList_cons, ← List.cons_append,
        show rt.length + 1 = (a :: rt).length from rfl,
        List.take_left, List.drop_left]

/-- Rebuilding a rectangular array from its flattened rows: chunking the
flattening by the common row length gives back the rows. -/
theorem chunkList_flatten_rows {α : Type} (c : ℕ) (hc : 0 < c) :
    ∀ rows : List (List α), (∀ r ∈ rows, r.length = c) →
      chunkList c rows.flatten = rows := by
  intro rows
  induction rows with
  | nil => intro _; simp [chunkList]
  | cons r t ih =>
      intro hrect
      have hr : r.length = c := hrect r (by simp)
      have hnil : r ≠ [] := by
        intro h0
        rw [h0] at hr
        simp at hr
        omega
      rw [List.flatten_cons, ← hr, chunkList_append r t.flatten hnil, hr,
        ih (fun s hs => hrect s (by simp [hs]))]

/-- Loading a saved parameter file restores the parameter state exactly,
provided the embedding table is rectangular with positive row length (as
the pretrained 200-unit embedding is). -/
theorem save_load_roundtrip (p : ModelParams)
    (hrect : ∀ r ∈ p.embedding_weight,
      r.length = (p.embedding_weight.headD []).length)
    (hpos : p.embedding_weight = [] ∨
      0 < (p.embedding_weight.headD []).length) :
    load_parameters (save_parameters p) = some p := by
  have hload : load_parameters (save_parameters p) =
      some ⟨chunkList (p.embedding_weight.headD []).length
          p.embedding_weight.flatten,
        p.encoder_weight, p.dense_weight, p.dense_bias⟩ := rfl
  have hemb : chunkList (p.embedding_weight.headD []).length
      p.embedding_weight.flatten = p.embedding_weight := by
    rcases hpos with hemp | hc
    · rw [hemp]
      simp [chunkList]
    · exact chunkList_flatten_rows _ hc p.embedding_weight hrect
  rw [hload, hemb]

/-- C6: saving the model parameters and loading them back yields a model
that produces identical inference outputs on every fixed input: the
reloaded state equals the saved one, so the forward pass (for any
encoder, any token batch and any valid-length vector) gives the same
logits. -/
theorem save_load_preserves_inference (p : ModelParams)
    (hrect : ∀ r ∈ p.embedding_weight,
      r.length = (p.embedding_weight.headD []).length)
    (hpos : p.embedding_weight = [] ∨
      0 < (p.embedding_weight.headD []).length) :
    load_parameters (save_parameters p) = some p ∧
      ∀ q : ModelParams, load_parameters (save_parameters p) = some q →
        ∀ (encoder : List ℚ → (ℕ → ℕ → ℕ → ℚ) → ℕ → ℕ → ℕ → ℚ)
          (T C : ℕ) (data : ℕ → ℕ → ℕ) (valid_length : ℕ → ℕ) (n : ℕ),
          SentimentNet_forward encoder q T C data valid_length n =
            SentimentNet_forward encoder p T C data valid_length n := by
  have h := save_load_roundtrip p hrect hpos
  refine ⟨h, ?_⟩
  intro q hq
  rw [h] at hq
  obtain rfl : p = q := Option.some.inj hq
  intro encoder T C data valid_length n
  rfl

/-- Witness for C6 at a concrete parameter state with a 2 by 2 embedding
table. -/
theorem save_load_preserves_inference_witness :
    (∀ r ∈ ([[1, 2], [3, 4]] : List (List ℚ)),
        r.length = (([[1, 2], [3, 4]] : List (List ℚ)).headD []).length) ∧
      load_parameters (save_parameters ⟨[[1, 2], [3, 4]], [5], [6, 7], 8⟩) =
        some (⟨[[1, 2], [3, 4]], [5], [6, 7], 8⟩ : ModelParams) :=
  ⟨by decide,
    (save_load_preserves_inference ⟨[[1, 2], [3, 4]], [5], [6, 7], 8⟩
      (by decide) (Or.inr (by decide))).1⟩

/-- The bucket assignment always lands in an existing bucket. -/
theorem assignBucket_lt (keys : List ℕ) (hkeys : keys ≠ []) (len : ℕ) :
    assignBucket keys len < keys.length := by
  induction keys with
  | nil => exact absurd rfl hkeys
  | cons k rest ih =>
      cases rest with
      | nil => simp [assignBucket]
      | cons k2 r2 =>
          simp only [assignBucket]
          split
          · simp
          · have hlt := ih (by simp)
            simp only [List.length_cons] at hlt ⊢
            omega

/-- Summing an indicator over List.range: only the matching index
contributes. -/
theorem sum_range_indicator (c a : ℕ) :
    ∀ B : ℕ, ((List.range B).map (fun b => if a = b then c else 0)).sum =
      if a < B then c else 0 := by
  intro B
  induction B with
  | zero => simp
  | succ B ih =>
      rw [List.range_succ, List.map_append, List.sum_append, ih]
      simp only [List.map_cons, List.map_nil, List.sum_cons, List.sum_nil]
      split_ifs <;> omega

/-- Counting inside a filter by a function value: the count survives
exactly when the key matches. -/
theorem count_filter_eq (x : ℕ) (f : ℕ → ℕ) (b : ℕ) :
    ∀ l : List ℕ, (l.filter (fun s => f s == b)).count x =
      if f x = b then l.count x else 0 := by
  intro l
  induction l with
  | nil => simp
  | cons s t ih =>
      simp only [List.filter_cons]
      by_cases hfs : f s = b
      · rw [if_pos (by simp [hfs])]
        simp only [List.count_cons, ih]
        by_cases hfx : f x = b
        · rw [if_pos hfx, if_pos hfx]
        · rw [if_neg hfx, if_neg hfx]
          have hxs : (s == x) = false := by
            apply beq_eq_false_iff_ne.mpr
            intro he
            exact hfx (he ▸ hfs)
          rw [hxs]
          simp
      · rw [if_neg (by simp [hfs]), ih]
        by_cases hfx : f x = b
        · rw [if_pos hfx, if_pos hfx, List.count_cons]
          have hxs : (s == x) = false := by
            apply beq_eq_false_iff_ne.mpr
            intro he
            apply hfs
            rw [he]
            exact hfx
          rw [hxs]
          simp
        · rw [if_neg hfx, if_neg hfx]

/-- Counting a dataset index across the flattened buckets: every index
appears as often as in the index range, since it is assigned to exactly
one existing bucket. -/
theorem count_flatten_buckets (lengths keys : List ℕ) (x : ℕ)
    (hkeys : keys ≠ []) :
    (((List.range keys.length).map
        (fun b => bucket_of lengths keys b)).flatten).count x =
      (List.range lengths.length).count x := by
  rw [List.count_flatten, List.map_map]
  have hcf : ∀ b, (bucket_of lengths keys b).count x =
      if assignBucket keys (lengths.getD x 0) = b then
        (List.range lengths.length).count x else 0 := by
    intro b
    unfold bucket_of
    exact count_filter_eq x (fun s => assignBucket keys (lengths.getD s 0)) b _
  simp only [Function.comp_def, hcf]
  rw [sum_range_indicator, if_pos (assignBucket_lt keys hkeys _)]

/-- Flattening the batched buckets of one epoch gives the flattened
buckets: the per-bucket batching only regroups each bucket. -/
theorem sampler_flatten (lengths keys : List ℕ) (bsizes : ℕ → ℕ)
    (hbs : ∀ b, 0 < bsizes b) :
    (fixed_bucket_sampler lengths keys bsizes).flatten =
      ((List.range keys.length).map
        (fun b => bucket_of lengths keys b)).flatten := by
  unfold fixed_bucket_sampler
  generalize List.range keys.length = L
  induction L with
  | nil => rfl
  | cons b t ih =>
      rw [List.map_cons, List.flatten_cons, List.flatten_append,
        chunkList_flatten _ (hbs b), ih, List.map_cons, List.flatten_cons]

/-- C8: one epoch of the bucketed batch sampler yields every sample of
the dataset exactly once: for any per-epoch shuffle of the batch list,
the concatenation of all batches is a permutation of the dataset index
range, with no duplicates and no omissions. -/
theorem sampler_yields_each_sample_once (lengths keys : List ℕ)
    (bsizes : ℕ → ℕ) (shuffled : List (List ℕ)) (hkeys : keys ≠ [])
    (hbs : ∀ b, 0 < bsizes b)
    (hshuffle : shuffled.Perm (fixed_bucket_sampler lengths keys bsizes)) :
    shuffled.flatten.Perm (List.range lengths.length) := by
  apply List.perm_iff_count.mpr
  intro x
  have h1 : shuffled.flatten.count x =
      (fixed_bucket_sampler lengths keys bsizes).flatten.count x := by
    rw [List.count_flatten, List.count_flatten]
    exact (hshuffle.map (List.count x)).sum_eq
  rw [h1, sampler_flatten lengths keys bsizes hbs,
    count_flatten_buckets lengths keys x hkeys]

/-- Witness for C8 on a concrete dataset of three lengths with two
buckets and batch size 2, with the identity shuffle. -/
theorem sampler_yields_each_sample_once_witness :
    ([3, 6] ≠ ([] : List ℕ)) ∧
      (fixed_bucket_sampler [2, 5, 1] [3, 6] (fun _ => 2)).flatten.Perm
        (List.range 3) :=
  ⟨by decide,
    sampler_yields_each_sample_once [2, 5, 1] [3, 6] (fun _ => 2) _
      (by decide) (fun _ => Nat.succ_pos 1) (List.Perm.refl _)⟩
